import Mathlib

/-!
Verification of the durable workflow execution engine of the `vibesOnly`
service (src/src/workflow-engine.ts, src/src/server.ts).  The engine itself
(run store, step store, step executor, scheduler, progress API) is provided
by the imported `pg-workflows` library, whose code is not part of the
repository; following the design document, those components are modelled
here from the spec (sections 3 to 7) and each such definition is marked
`Modelled from the spec:`.  The concrete analysis workflow, the SQL upsert
of the save-analysis step, the `compactUUID` helper and the response-parsing
fallback of the generate-analysis step are translated directly from the
TypeScript source.
-/

namespace VibesOnly

/-! ### Step store and step executor -/

/-- Modelled from the spec: a step definition is a named step function
receiving the run input, the outputs of previously completed steps, and an
external world it may act on; it returns the new world and either an output
or a thrown error (spec section 3, WorkflowDefinition; section 6, step
function contract).  The library code implementing `step.run` is not in the
repository. -/
structure StepDef (σ Input Out : Type) where
  name : String
  run : Input → List (String × Out) → σ → σ × Except String Out

/-- Modelled from the spec: `getStepOutput(runId, stepName)` on the per-run
slice of the Step Store, a list of `(stepName, output)` checkpoints
(spec section 4.3). -/
def lookupStep {Out : Type} (store : List (String × Out)) (name : String) :
    Option Out :=
  (store.find? (fun p => p.1 == name)).map (·.2)

/-- Outcome of one execution attempt of a run: the final step store, the
final external world, the names of the steps actually invoked (executed)
during the attempt, the names of the steps reached (skipped or executed),
and either the accumulated step outputs on success or the thrown error. -/
structure ExecOut (σ Out : Type) where
  store : List (String × Out)
  world : σ
  invoked : List String
  reached : List String
  result : Except String (List (String × Out))

/-- Modelled from the spec: the Step Executor state machine (spec section
4.4): for each step in definition order, skip it if a StepRecord exists and
use the stored output, otherwise execute the step function with access to
the run input and prior outputs, checkpointing its output on success; a
step exception aborts the remaining steps of the attempt.  The `pg-workflows`
executor implementing this is not in the repository. -/
def execSteps {σ Input Out : Type} (input : Input) :
    List (StepDef σ Input Out) → List (String × Out) → List (String × Out) →
    σ → ExecOut σ Out
  | [], store, acc, w => ⟨store, w, [], [], .ok acc⟩
  | s :: rest, store, acc, w =>
    match lookupStep store s.name with
    | some out =>
      let r := execSteps input rest store (acc ++ [(s.name, out)]) w
      { r with reached := s.name :: r.reached }
    | none =>
      match s.run input acc w with
      | (w', .ok out) =>
        let r := execSteps input rest (store ++ [(s.name, out)])
          (acc ++ [(s.name, out)]) w'
        { r with invoked := s.name :: r.invoked,
                 reached := s.name :: r.reached }
      | (w', .error e) => ⟨store, w', [s.name], [s.name], .error e⟩

/-! ### The analyze-session workflow, translated from
src/src/workflow-engine.ts -/

/-- One content block of a language-model response: a text block carrying
the response text, or a block of any other type. -/
inductive ContentBlock
  | text (s : String)
  | other
deriving DecidableEq

/-- Response of `anthropic.messages.create`: a list of content blocks. -/
structure ApiResponse where
  content : List ContentBlock
deriving DecidableEq

/-- Value of the `parsedAnalysis` variable: either the successfully parsed
JSON (kept abstract as the text it was parsed from) or the fallback object
`\x7b rawAnalysis: text \x7d`. -/
inductive Analysis
  | parsed (json : String)
  | rawAnalysis (text : String)
deriving DecidableEq

/-- Try-block of the generate-analysis step (workflow-engine.ts lines
86 to 92): read `response.content?.[0]`; throw when it is absent or not a
text block; otherwise run `JSON.parse` on its text, which throws when the
text is not valid JSON.  JSON validity is an oracle parameter. -/
def tryParseAnalysis (jsonValid : String → Bool)
    (content : List ContentBlock) : Except String String :=
  match content.head? with
  | some (.text t) =>
    if jsonValid t then .ok t else .error "Unexpected token in JSON"
  | some .other => .error "Empty response from API"
  | none => .error "Empty response from API"

/-- Full try/catch parse of the generate-analysis step (workflow-engine.ts
lines 86 to 99): on any throw inside the try-block, fall back to
`\x7b rawAnalysis: text \x7d` where `text` is the first content block's text
when it is a text block and the string `Analysis failed to parse`
otherwise. -/
def parseAnalysis (jsonValid : String → Bool)
    (content : List ContentBlock) : Analysis :=
  match tryParseAnalysis jsonValid content with
  | .ok t => .parsed t
  | .error _ =>
    match content.head? with
    | some (.text t) => .rawAnalysis t
    | _ => .rawAnalysis "Analysis failed to parse"

/-- Output of one workflow step of the analysis workflow. -/
inductive Val
  | rows (msgs : List (String × String))
  | analysisVal (a : Analysis)
  | saved
deriving DecidableEq

/-- External world acted on by the analysis workflow's steps: the
`transcript_messages` rows grouped per session in position order, the
`analyses` table keyed by `session_id` (its primary key), the response the
Anthropic API returns, and a counter of Anthropic API invocations. -/
structure World where
  transcripts : List (String × List (String × String))
  analyses : List (String × Analysis)
  apiResponse : ApiResponse
  apiCalls : Nat
deriving DecidableEq

/-- Upsert of the save-analysis step, translated from the SQL
`INSERT INTO analyses (session_id, result) VALUES ($1, $2)
ON CONFLICT (session_id) DO UPDATE SET result = $2` (workflow-engine.ts
lines 106 to 110): when a row with the session id exists its result is
replaced, otherwise a new row is appended. -/
def upsertAnalysis (db : List (String × Analysis)) (sid : String)
    (res : Analysis) : List (String × Analysis) :=
  if db.any (fun p => p.1 == sid) then
    db.map (fun p => if p.1 == sid then (p.1, res) else p)
  else
    db ++ [(sid, res)]

/-- Step 1, `fetch-transcript`: select role and content of the session's
transcript messages ordered by position (workflow-engine.ts lines 28
to 37). -/
def fetchTranscriptStep : StepDef World String Val :=
  ⟨"fetch-transcript", fun sessionId _ w =>
    (w, .ok (.rows ((lookupStep w.transcripts sessionId).getD [])))⟩

/-- Step 2, `generate-analysis`: call the Anthropic API (modelled by the
world's response oracle, counting the invocation) and parse the response
with the try/catch fallback (workflow-engine.ts lines 40 to 102). -/
def generateAnalysisStep (jsonValid : String → Bool) :
    StepDef World String Val :=
  ⟨"generate-analysis", fun _ _ w =>
    ({ w with apiCalls := w.apiCalls + 1 },
     .ok (.analysisVal (parseAnalysis jsonValid w.apiResponse.content)))⟩

/-- Step 3, `save-analysis`: upsert the analysis produced by step 2 into
the `analyses` table (workflow-engine.ts lines 105 to 112). -/
def saveAnalysisStep : StepDef World String Val :=
  ⟨"save-analysis", fun sessionId acc w =>
    match lookupStep acc "generate-analysis" with
    | some (.analysisVal a) =>
      ({ w with analyses := upsertAnalysis w.analyses sessionId a },
       .ok .saved)
    | _ => (w, .error "analysis output missing")⟩

/-- The `analyze-session` workflow definition: its three steps in
definition order (workflow-engine.ts lines 24 to 121). -/
def analyzeSessionSteps (jsonValid : String → Bool) :
    List (StepDef World String Val) :=
  [fetchTranscriptStep, generateAnalysisStep jsonValid, saveAnalysisStep]

/-- Retry bound of the `analyze-session` workflow (workflow-engine.ts
line 118, `retries: 3`). -/
def analyzeSessionRetries : Nat := 3

/-- Whole-run timeout of the `analyze-session` workflow in milliseconds
(workflow-engine.ts line 119). -/
def analyzeSessionTimeoutMs : Nat := 5 * 60 * 1000

/-! ### Run store and scheduler operations -/

/-- Modelled from the spec: run status, one of pending, active, completed,
failed (spec section 3, WorkflowRun). -/
inductive RunStatus
  | pending
  | active
  | completed
  | failed
deriving DecidableEq

/-- Modelled from the spec: one workflow run row of the Run Store (spec
section 3, WorkflowRun). -/
structure WorkflowRun where
  id : Nat
  workflowName : String
  resourceId : String
  status : RunStatus
  retryCount : Nat
  maxRetries : Nat
  error : Option String
deriving DecidableEq

/-- Modelled from the spec: the durable Run Store, a list of run rows plus
the next fresh run id (spec section 4.2). -/
structure RunStore where
  runs : List WorkflowRun
  nextId : Nat
deriving DecidableEq

/-- A run counts against the busy condition for `(workflowName,
resourceId)` when its status is pending or active (spec section 3,
invariant). -/
def inflight (r : WorkflowRun) (wf rid : String) : Bool :=
  r.workflowName == wf && r.resourceId == rid &&
    (r.status == .pending || r.status == .active)

/-- The in-flight run for a `(workflowName, resourceId)` pair, when one
exists. -/
def busyRun (st : RunStore) (wf rid : String) : Option WorkflowRun :=
  st.runs.find? (fun r => inflight r wf rid)

/-- Number of in-flight runs for a `(workflowName, resourceId)` pair. -/
def inflightCount (st : RunStore) (wf rid : String) : Nat :=
  (st.runs.filter (fun r => inflight r wf rid)).length

/-- Modelled from the spec: `startWorkflow` / `createRun` as one atomic
operation: check the busy condition and, when an in-flight run exists for
the pair, return the existing run's id without inserting a row (the
busy-resource rule, spec sections 4.2, 6 and 7); otherwise insert a new
pending row with a fresh id and return it.  The call performs no step
execution. -/
def startWorkflow (st : RunStore) (wf rid : String) (maxR : Nat) :
    RunStore × Nat :=
  match busyRun st wf rid with
  | some r => (st, r.id)
  | none =>
    ({ runs := st.runs ++ [⟨st.nextId, wf, rid, .pending, 0, maxR, none⟩],
       nextId := st.nextId + 1 }, st.nextId)

/-- Modelled from the spec: `claimNextPending` atomically selects one
pending run and transitions it to active (spec section 4.2). -/
def claimNext (st : RunStore) : RunStore × Option Nat :=
  match st.runs.find? (fun r => r.status == .pending) with
  | some r =>
    ({ st with runs := st.runs.map (fun x =>
        if x.id == r.id && x.status == .pending then
          { x with status := .active } else x) }, some r.id)
  | none => (st, none)

/-- Modelled from the spec: `markCompleted` transitions an active run to
completed; re-applying a terminal transition is a no-op (spec section
4.2). -/
def markCompleted (st : RunStore) (runId : Nat) : RunStore :=
  { st with runs := st.runs.map (fun r =>
      if r.id == runId && r.status == .active then
        { r with status := .completed } else r) }

/-- Modelled from the spec: `markFailed` transitions an active run to
failed, recording the error; re-applying a terminal transition is a no-op
(spec sections 4.2 and 3: error is set only when retries are exhausted). -/
def markFailed (st : RunStore) (runId : Nat) (e : String) : RunStore :=
  { st with runs := st.runs.map (fun r =>
      if r.id == runId && r.status == .active then
        { r with status := .failed, error := some e } else r) }

/-- Modelled from the spec: `markRetrying` sends an active run whose
retries are not exhausted back to pending, incrementing its retry count
(spec sections 4.2 and 4.4). -/
def markRetrying (st : RunStore) (runId : Nat) : RunStore :=
  { st with runs := st.runs.map (fun r =>
      if r.id == runId && r.status == .active then
        { r with status := .pending, retryCount := r.retryCount + 1 }
      else r) }

/-- One atomic Run Store operation; any interleaving of concurrent callers
and pollers is a sequence of these, because the spec requires every one of
them to be a single atomic store operation (spec section 5). -/
inductive EngineOp
  | create (wf rid : String) (maxR : Nat)
  | claim
  | complete (runId : Nat)
  | fail (runId : Nat) (e : String)
  | retry (runId : Nat)

/-- Apply one atomic operation to the Run Store. -/
def applyOp (st : RunStore) : EngineOp → RunStore
  | .create wf rid maxR => (startWorkflow st wf rid maxR).1
  | .claim => (claimNext st).1
  | .complete runId => markCompleted st runId
  | .fail runId e => markFailed st runId e
  | .retry runId => markRetrying st runId

/-- Apply a sequence of atomic operations to the Run Store. -/
def applyOps (st : RunStore) (ops : List EngineOp) : RunStore :=
  ops.foldl applyOp st

/-- The empty Run Store, the state before any run is submitted. -/
def emptyStore : RunStore := ⟨[], 0⟩

/-- Deduplication invariant: at most one in-flight run per `(workflowName,
resourceId)` pair (spec section 3). -/
def Invariant (st : RunStore) : Prop :=
  ∀ wf rid, inflightCount st wf rid ≤ 1

/-! ### Retry driver -/

/-- Result of driving one run to a terminal status. -/
structure DriveResult (Out : Type) where
  status : RunStatus
  retryCount : Nat
  error : Option String
  output : Option Out
deriving DecidableEq

/-- Error message recorded when an execution attempt exceeds the
workflow's timeout budget (spec section 7, RunTimeoutError). -/
def runTimeoutErrorMessage : String :=
  "RunTimeoutError: attempt exceeded the workflow timeout budget"

/-- Modelled from the spec: the run-level retry loop (spec sections 4.4
and 7).  `attempt k` is the outcome of the execution attempt made with
`retryCount = k`; on failure the run is retried while `retryCount <
maxRetries` (`rem` is the number of retries still allowed, so `rem =
maxRetries - k`), and marked failed with the last error otherwise. -/
def driveAux {Out : Type} (attempt : Nat → Sum String Out) (k : Nat) :
    Nat → DriveResult Out
  | 0 =>
    match attempt k with
    | .inr o => ⟨.completed, k, none, some o⟩
    | .inl e => ⟨.failed, k, some e, none⟩
  | rem + 1 =>
    match attempt k with
    | .inr o => ⟨.completed, k, none, some o⟩
    | .inl _ => driveAux attempt (k + 1) rem

/-- Drive a fresh run (retryCount 0) with the given retry bound. -/
def drive {Out : Type} (attempt : Nat → Sum String Out)
    (maxRetries : Nat) : DriveResult Out :=
  driveAux attempt 0 maxRetries

/-- Raw outcome of one execution attempt before the driver's failure
handling: success, a step exception, or exceeding the timeout budget. -/
inductive RawOutcome (Out : Type)
  | ok (o : Out)
  | exn (msg : String)
  | timeout

/-- Modelled from the spec: the same retry loop written with the timeout
outcome as its own match arm, exactly as the spec's taxonomy lists
`RunTimeoutError` separately (spec section 7); both failure arms take the
same markRetrying / markFailed decision. -/
def driveRawAux {Out : Type} (attempt : Nat → RawOutcome Out) (k : Nat) :
    Nat → DriveResult Out
  | 0 =>
    match attempt k with
    | .ok o => ⟨.completed, k, none, some o⟩
    | .exn e => ⟨.failed, k, some e, none⟩
    | .timeout => ⟨.failed, k, some runTimeoutErrorMessage, none⟩
  | rem + 1 =>
    match attempt k with
    | .ok o => ⟨.completed, k, none, some o⟩
    | .exn _ => driveRawAux attempt (k + 1) rem
    | .timeout => driveRawAux attempt (k + 1) rem

/-- A raw attempt outcome as the failure-or-success the retry accounting
sees: a timeout becomes a step failure carrying the timeout error. -/
def asFailure {Out : Type} : RawOutcome Out → Sum String Out
  | .ok o => .inr o
  | .exn e => .inl e
  | .timeout => .inl runTimeoutErrorMessage

/-- Attempt behaviour of a step that throws on each of its first N−1
attempts and succeeds on attempt N (attempt number = retryCount + 1),
with `errs k` the error thrown by the attempt with retryCount k. -/
def attemptOf {Out : Type} (errs : Nat → String) (out : Out) (N : Nat) :
    Nat → Sum String Out :=
  fun k => if k + 1 < N then .inl (errs k) else .inr out

/-! ### Progress API -/

/-- Progress report of `checkProgress`. -/
structure Progress where
  completedSteps : Nat
  totalSteps : Nat
  completionPercentage : Nat
deriving DecidableEq

/-- Modelled from the spec: `checkProgress` computes the completed step
count by counting the run's StepRecords against the workflow definition's
step count (spec section 4.6); it only reads the store. -/
def checkProgress {Out : Type} (store : List (String × Out))
    (totalSteps : Nat) : Progress :=
  ⟨store.length, totalSteps, store.length * 100 / totalSteps⟩

/-! ### The resource id, translated from src/src/server.ts -/

/-- Translated from `compactUUID` (server.ts lines 525 to 527): strip every
hyphen from the session id, `uuid.replaceAll(&quot;-&quot;, ...)`, so a
36-character UUID fits the store's 32-character resource id column. -/
def compactUUID (uuid : String) : String :=
  ⟨uuid.data.filter (fun c => c != '-')⟩

/-- Resource id bound of the underlying store, varchar(32) (server.ts
line 524). -/
def resourceIdBound : Nat := 32

/-! ### Concrete fixtures used by the witnesses -/

/-- JSON-validity oracle of a model response that is never valid JSON. -/
def noJson : String → Bool := fun _ => false

/-- A world with one session, an empty analyses table and a non-JSON model
response. -/
def c1World : World :=
  ⟨[("s1", [("user", "hello")])], [], ⟨[ContentBlock.text "not json"]⟩, 0⟩

/-- The analyze-session steps under the never-valid-JSON oracle. -/
def c1Steps : List (StepDef World String Val) := analyzeSessionSteps noJson

/-- Outputs of a full run of `c1Steps` on `c1World` for session s1. -/
def c1Outs : List (String × Val) :=
  [("fetch-transcript", .rows [("user", "hello")]),
   ("generate-analysis", .analysisVal (.rawAnalysis "not json")),
   ("save-analysis", .saved)]

/-- A three-step workflow whose second step always throws. -/
def failSteps : List (StepDef Nat String Nat) :=
  [⟨"alpha", fun _ _ w => (w + 1, .ok 1)⟩,
   ⟨"beta", fun _ _ w => (w + 1, .error "boom")⟩,
   ⟨"gamma", fun _ _ w => (w + 1, .ok 3)⟩]

/-! ### Basic executor lemmas -/

theorem lookupStep_append {Out : Type} (l₁ l₂ : List (String × Out))
    (n : String) :
    lookupStep (l₁ ++ l₂) n =
      ((lookupStep l₁ n).rec (lookupStep l₂ n) (fun o => some o)) := by
  induction l₁ with
  | nil => simp [lookupStep]
  | cons p l₁ ih =>
    by_cases h : p.1 == n
    · simp [lookupStep, List.find?, h]
    · simp only [Bool.not_eq_true] at h
      simp only [lookupStep, List.cons_append, List.find?, h] at ih ⊢
      exact ih

theorem lookupStep_append_left {Out : Type} {l₁ : List (String × Out)}
    (l₂ : List (String × Out)) {n : String} {o : Out}
    (h : lookupStep l₁ n = some o) :
    lookupStep (l₁ ++ l₂) n = some o := by
  rw [lookupStep_append, h]

theorem lookupStep_append_none {Out : Type} {l₁ : List (String × Out)}
    {l₂ : List (String × Out)} {n : String}
    (h : lookupStep (l₁ ++ l₂) n = none) :
    lookupStep l₁ n = none := by
  rw [lookupStep_append] at h
  cases h' : lookupStep l₁ n with
  | none => rfl
  | some o => rw [h'] at h; simp at h

/-- The step store only grows during an attempt: the final store extends the
initial one. -/
theorem execSteps_store_extends {σ Input Out : Type} (input : Input) :
    ∀ (steps : List (StepDef σ Input Out)) (store acc : List (String × Out))
      (w : σ), ∃ ext, (execSteps input steps store acc w).store = store ++ ext
  | [], store, acc, w => ⟨[], by simp [execSteps]⟩
  | s :: rest, store, acc, w => by
    simp only [execSteps]
    cases hl : lookupStep store s.name with
    | some out =>
      simpa using execSteps_store_extends input rest store
        (acc ++ [(s.name, out)]) w
    | none =>
      cases hr : s.run input acc w with
      | mk w' res =>
        cases res with
        | ok out =>
          obtain ⟨ext, hext⟩ := execSteps_store_extends input rest
            (store ++ [(s.name, out)]) (acc ++ [(s.name, out)]) w'
          exact ⟨(s.name, out) :: ext, by simpa using hext⟩
        | error e => exact ⟨[], by simp⟩

/-- Skip guarantee: a step whose StepRecord is present in the initial store
is never invoked during the attempt. -/
theorem execSteps_skips_recorded {σ Input Out : Type} (input : Input) :
    ∀ (steps : List (StepDef σ Input Out)) (store acc : List (String × Out))
      (w : σ) (n : String), n ∈ (execSteps input steps store acc w).invoked →
      lookupStep store n = none
  | [], store, acc, w, n => by simp [execSteps]
  | s :: rest, store, acc, w, n => by
    simp only [execSteps]
    cases hl : lookupStep store s.name with
    | some out =>
      intro hmem
      exact execSteps_skips_recorded input rest store
        (acc ++ [(s.name, out)]) w n hmem
    | none =>
      cases hr : s.run input acc w with
      | mk w' res =>
        cases res with
        | ok out =>
          intro hmem
          rcases List.mem_cons.mp hmem with heq | hmem'
          · exact heq ▸ hl
          · have := execSteps_skips_recorded input rest
              (store ++ [(s.name, out)]) (acc ++ [(s.name, out)]) w' n hmem'
            exact lookupStep_append_none this
        | error e =>
          intro hmem
          rcases List.mem_cons.mp hmem with heq | hmem'
          · exact heq ▸ hl
          · simp at hmem'

/-- Replay: re-running an attempt that succeeded, against the store it
produced, invokes no step, leaves the store and the world untouched, and
returns the same accumulated outputs (hence the same final output). -/
theorem execSteps_replay {σ Input Out : Type} (input : Input) :
    ∀ (steps : List (StepDef σ Input Out)) (store acc : List (String × Out))
      (w : σ) (outs : List (String × Out)),
      (execSteps input steps store acc w).result = .ok outs →
      execSteps input steps (execSteps input steps store acc w).store acc
          (execSteps input steps store acc w).world =
        { execSteps input steps store acc w with invoked := [] }
  | [], store, acc, w, outs => by simp [execSteps]
  | s :: rest, store, acc, w, outs => by
    simp only [execSteps]
    cases hl : lookupStep store s.name with
    | some out =>
      intro hres
      have ih := execSteps_replay input rest store (acc ++ [(s.name, out)])
        w outs hres
      have hl' : lookupStep (execSteps input rest store
          (acc ++ [(s.name, out)]) w).store s.name = some out := by
        obtain ⟨ext, hext⟩ := execSteps_store_extends input rest store
          (acc ++ [(s.name, out)]) w
        rw [hext]
        exact lookupStep_append_left ext hl
      simp only [execSteps, hl', ih]
    | none =>
      cases hr : s.run input acc w with
      | mk w' res =>
        cases res with
        | ok out =>
          intro hres
          have ih := execSteps_replay input rest (store ++ [(s.name, out)])
            (acc ++ [(s.name, out)]) w' outs hres
          have hl' : lookupStep (execSteps input rest
              (store ++ [(s.name, out)]) (acc ++ [(s.name, out)]) w').store
              s.name = some out := by
            obtain ⟨ext, hext⟩ := execSteps_store_extends input rest
              (store ++ [(s.name, out)]) (acc ++ [(s.name, out)]) w'
            rw [hext, List.append_assoc, lookupStep_append, hl]
            simp [lookupStep, List.find?]
          simp only [execSteps, hl', ih]
        | error e => intro hres; simp at hres

/-- Names of the steps reached during an attempt form a prefix of the
definition's step names: steps are processed strictly in definition order. -/
theorem execSteps_reached_ordered {σ Input Out : Type} (input : Input) :
    ∀ (steps : List (StepDef σ Input Out)) (store acc : List (String × Out))
      (w : σ),
      (execSteps input steps store acc w).reached <+:
        steps.map StepDef.name
  | [], store, acc, w => by simp [execSteps]
  | s :: rest, store, acc, w => by
    simp only [execSteps, List.map_cons]
    cases hl : lookupStep store s.name with
    | some out =>
      exact List.cons_prefix_cons.mpr ⟨rfl, execSteps_reached_ordered input
        rest store (acc ++ [(s.name, out)]) w⟩
    | none =>
      cases hr : s.run input acc w with
      | mk w' res =>
        cases res with
        | ok out =>
          exact List.cons_prefix_cons.mpr ⟨rfl, execSteps_reached_ordered input
            rest (store ++ [(s.name, out)]) (acc ++ [(s.name, out)]) w'⟩
        | error e =>
          exact List.cons_prefix_cons.mpr ⟨rfl, List.nil_prefix⟩

/-- The invoked steps are a subsequence, in order, of the reached steps. -/
theorem execSteps_invoked_sublist {σ Input Out : Type} (input : Input) :
    ∀ (steps : List (StepDef σ Input Out)) (store acc : List (String × Out))
      (w : σ),
      List.Sublist (execSteps input steps store acc w).invoked
        (execSteps input steps store acc w).reached
  | [], store, acc, w => by
    simp only [execSteps]
    exact List.Sublist.slnil
  | s :: rest, store, acc, w => by
    simp only [execSteps]
    cases hl : lookupStep store s.name with
    | some out =>
      exact (execSteps_invoked_sublist input rest store
        (acc ++ [(s.name, out)]) w).cons s.name
    | none =>
      cases hr : s.run input acc w with
      | mk w' res =>
        cases res with
        | ok out =>
          exact (execSteps_invoked_sublist input rest
            (store ++ [(s.name, out)]) (acc ++ [(s.name, out)]) w').cons₂ s.name
        | error e => exact List.Sublist.refl _

theorem getLast?_cons_of_ne_nil {α : Type} (a : α) {l : List α}
    (h : l ≠ []) : (a :: l).getLast? = l.getLast? := by
  cases l with
  | nil => exact absurd rfl h
  | cons b l => simp [List.getLast?_cons_cons]

/-- Abort on failure: when an attempt ends in an error, the reached steps
are exactly the first k+1 steps of the definition, the failing step (index
k) is the last step invoked, and no step past index k was reached. -/
theorem execSteps_error_aborts {σ Input Out : Type} (input : Input) :
    ∀ (steps : List (StepDef σ Input Out)) (store acc : List (String × Out))
      (w : σ) (e : String),
      (execSteps input steps store acc w).result = .error e →
      ∃ k, k < steps.length ∧
        (execSteps input steps store acc w).reached =
          (steps.map StepDef.name).take (k + 1) ∧
        (execSteps input steps store acc w).invoked.getLast? =
          (steps.map StepDef.name).get? k
  | [], store, acc, w, e => by simp [execSteps]
  | s :: rest, store, acc, w, e => by
    simp only [execSteps]
    cases hl : lookupStep store s.name with
    | some out =>
      intro hres
      obtain ⟨k, hk, hre, hinv⟩ := execSteps_error_aborts input rest store
        (acc ++ [(s.name, out)]) w e hres
      exact ⟨k + 1, by simpa using hk, by simpa using hre, by simpa using hinv⟩
    | none =>
      cases hr : s.run input acc w with
      | mk w' res =>
        cases res with
        | ok out =>
          intro hres
          obtain ⟨k, hk, hre, hinv⟩ := execSteps_error_aborts input rest
            (store ++ [(s.name, out)]) (acc ++ [(s.name, out)]) w' e hres
          have hne : (execSteps input rest (store ++ [(s.name, out)])
              (acc ++ [(s.name, out)]) w').invoked ≠ [] := by
            intro hnil
            rw [hnil] at hinv
            rw [List.get?_eq_get (show k < (rest.map StepDef.name).length by
              simpa using hk)] at hinv
            simp at hinv
          refine ⟨k + 1, by simpa using hk, by simpa using hre, ?_⟩
          simpa [getLast?_cons_of_ne_nil s.name hne] using hinv
        | error e' =>
          intro hres
          have he : e' = e := by simpa using hres
          exact ⟨0, by simp, by simp, by simp⟩

/-! ### Claim theorems for the step executor -/

/-- C1: executing a run a second time back-to-back against the step store
produced by a successful first execution invokes no step, leaves the step
store and the external world unchanged (a counter incremented by a step
stays at 1, not 2), and returns the same outputs, hence the same final
output; moreover no step whose StepRecord already exists in the initial
store is ever re-invoked: the executor skips it and returns the stored
output. -/
theorem workflow_resume_idempotent {σ Input Out : Type} (input : Input)
    (steps : List (StepDef σ Input Out)) (store acc : List (String × Out))
    (w : σ) (outs : List (String × Out))
    (hok : (execSteps input steps store acc w).result = .ok outs) :
    execSteps input steps (execSteps input steps store acc w).store acc
        (execSteps input steps store acc w).world =
      { execSteps input steps store acc w with invoked := [] } ∧
    ∀ n, (lookupStep store n).isSome →
      n ∉ (execSteps input steps store acc w).invoked := by
  constructor
  · exact execSteps_replay input steps store acc w outs hok
  · intro n hsome hmem
    rw [execSteps_skips_recorded input steps store acc w n hmem] at hsome
    simp at hsome

/-- C4: within one attempt, steps are processed strictly in definition
order (the reached steps form a prefix of the definition's step names and
the invoked steps follow that order), and a step exception aborts the
remaining steps: on an error the attempt reached exactly the steps up to
and including the failing one, which is the last step invoked. -/
theorem workflow_step_order {σ Input Out : Type} (input : Input)
    (steps : List (StepDef σ Input Out)) (store acc : List (String × Out))
    (w : σ) :
    (execSteps input steps store acc w).reached <+: steps.map StepDef.name ∧
    List.Sublist (execSteps input steps store acc w).invoked
      (execSteps input steps store acc w).reached ∧
    (∀ e, (execSteps input steps store acc w).result = .error e →
      ∃ k, k < steps.length ∧
        (execSteps input steps store acc w).reached =
          (steps.map StepDef.name).take (k + 1) ∧
        (execSteps input steps store acc w).invoked.getLast? =
          (steps.map StepDef.name).get? k) :=
  ⟨execSteps_reached_ordered input steps store acc w,
   execSteps_invoked_sublist input steps store acc w,
   fun e => execSteps_error_aborts input steps store acc w e⟩

/-! ### Lemmas about the save-analysis upsert -/

theorem upsert_comp_key (sid : String) (res : Analysis) :
    ((fun p => p.1 == sid) ∘
      (fun p : String × Analysis => if p.1 == sid then (p.1, res) else p)) =
    (fun p : String × Analysis => p.1 == sid) := by
  funext p
  by_cases hp : p.1 = sid <;> simp [hp]

theorem upsertAnalysis_idem (db : List (String × Analysis)) (sid : String)
    (res : Analysis) :
    upsertAnalysis (upsertAnalysis db sid res) sid res =
      upsertAnalysis db sid res := by
  unfold upsertAnalysis
  cases h : db.any (fun p => p.1 == sid) with
  | true =>
    simp only [h, if_true]
    have hany : (db.map fun p => if p.1 == sid then (p.1, res) else p).any
        (fun p => p.1 == sid) = true := by
      rw [List.any_map, upsert_comp_key]; exact h
    simp only [hany, if_true, List.map_map, upsert_comp_key]
    refine List.map_congr_left fun p _ => ?_
    by_cases hp : p.1 == sid <;> simp [Function.comp, hp]
  | false =>
    simp only [h, Bool.false_eq_true, if_false]
    have hany : (db ++ [(sid, res)]).any (fun p => p.1 == sid) = true := by
      simp [List.any_append]
    simp only [hany, if_true, List.map_append]
    have hdb : ∀ p ∈ db, (p.1 == sid) = false := by
      intro p hp
      by_contra hc
      have : db.any (fun p => p.1 == sid) = true :=
        List.any_eq_true.mpr ⟨p, hp, by simpa using hc⟩
      rw [h] at this
      exact Bool.false_ne_true this
    have h1 : db.map (fun p => if p.1 == sid then (p.1, res) else p) = db := by
      conv_rhs => rw [← List.map_id db]
      refine List.map_congr_left fun p hp => ?_
      simp [hdb p hp]
    rw [h1]
    simp

theorem upsertAnalysis_count (db : List (String × Analysis)) (sid : String)
    (res : Analysis)
    (hpk : (db.filter (fun p => p.1 == sid)).length ≤ 1) :
    ((upsertAnalysis db sid res).filter (fun p => p.1 == sid)).length = 1 := by
  unfold upsertAnalysis
  cases h : db.any (fun p => p.1 == sid) with
  | true =>
    simp only [h, if_true]
    rw [List.filter_map, upsert_comp_key, List.length_map]
    obtain ⟨x, hx, hq⟩ := List.any_eq_true.mp h
    have hmem : x ∈ db.filter (fun p => p.1 == sid) :=
      List.mem_filter.mpr ⟨hx, hq⟩
    have hpos : 0 < (db.filter (fun p => p.1 == sid)).length :=
      List.length_pos.mpr (List.ne_nil_of_mem hmem)
    omega
  | false =>
    simp only [h, Bool.false_eq_true, if_false]
    rw [List.filter_append]
    have h1 : db.filter (fun p => p.1 == sid) = [] := by
      rw [List.filter_eq_nil_iff]
      intro p hp hc
      have : db.any (fun p => p.1 == sid) = true :=
        List.any_eq_true.mpr ⟨p, hp, hc⟩
      rw [h] at this
      exact Bool.false_ne_true this
    simp [h1]

theorem upsertAnalysis_lookup (db : List (String × Analysis)) (sid : String)
    (res : Analysis) :
    lookupStep (upsertAnalysis db sid res) sid = some res := by
  unfold upsertAnalysis lookupStep
  cases h : db.any (fun p => p.1 == sid) with
  | true =>
    simp only [h, if_true]
    rw [List.find?_map, upsert_comp_key]
    obtain ⟨x, hx, hq⟩ := List.any_eq_true.mp h
    cases hf : db.find? (fun p => p.1 == sid) with
    | none =>
      rw [List.find?_eq_none] at hf
      exact absurd hq (hf x hx)
    | some y =>
      have hqy := List.find?_some hf
      have hy : y.1 = sid := by simpa using hqy
      simp [hy]
  | false =>
    simp only [h, Bool.false_eq_true, if_false]
    rw [List.find?_append]
    have h1 : db.find? (fun p => p.1 == sid) = none := by
      rw [List.find?_eq_none]
      intro p hp hc
      have : db.any (fun p => p.1 == sid) = true :=
        List.any_eq_true.mpr ⟨p, hp, hc⟩
      rw [h] at this
      exact Bool.false_ne_true this
    simp [h1, List.find?]

/-- C8: the save-analysis step is idempotent.  Running it a second time
after it has already run, for the same session and the same analysis value
(the value is checkpointed, so a crash-resume re-runs it with the same
input), leaves the database state unchanged and succeeds again; and after
running it the `analyses` table holds exactly one row for the session id
(its primary key), containing the latest result. -/
theorem save_analysis_idempotent (sid : String) (a : Analysis)
    (acc : List (String × Val)) (w : World)
    (hacc : lookupStep acc "generate-analysis" = some (.analysisVal a))
    (hpk : (w.analyses.filter (fun p => p.1 == sid)).length ≤ 1) :
    saveAnalysisStep.run sid acc (saveAnalysisStep.run sid acc w).1 =
      ((saveAnalysisStep.run sid acc w).1, .ok .saved) ∧
    ((saveAnalysisStep.run sid acc w).1.analyses.filter
      (fun p => p.1 == sid)).length = 1 ∧
    lookupStep (saveAnalysisStep.run sid acc w).1.analyses sid = some a := by
  have hrun : ∀ w' : World, saveAnalysisStep.run sid acc w' =
      ({ w' with analyses := upsertAnalysis w'.analyses sid a },
       .ok .saved) := by
    intro w'
    simp [saveAnalysisStep, hacc]
  refine ⟨?_, ?_, ?_⟩
  · calc saveAnalysisStep.run sid acc (saveAnalysisStep.run sid acc w).1
        = saveAnalysisStep.run sid acc
            { w with analyses := upsertAnalysis w.analyses sid a } := by
          rw [hrun w]
      _ = ({ w with
              analyses := upsertAnalysis (upsertAnalysis w.analyses sid a)
                sid a }, .ok .saved) := hrun _
      _ = ((saveAnalysisStep.run sid acc w).1, .ok .saved) := by
          rw [hrun w]
          simp [upsertAnalysis_idem]
  · rw [hrun]
    exact upsertAnalysis_count w.analyses sid a hpk
  · rw [hrun]
    exact upsertAnalysis_lookup w.analyses sid a

/-- C10: the generate-analysis step never fails on an unparseable
language-model response.  When the first content block is a text block
whose text is not valid JSON the try-block throws but the step returns the
fallback `\x7b rawAnalysis: text \x7d`; when the first content block is
missing or not a text block the try-block throws and the step returns the
fallback with the text `Analysis failed to parse`; in every case the step
function returns `.ok` (it never throws), so malformed model output
consumes no retry attempts. -/
theorem generate_analysis_parse_fallback (jsonValid : String → Bool)
    (content : List ContentBlock) (sid : String)
    (acc : List (String × Val)) (w : World) :
    (∀ t, content.head? = some (.text t) → jsonValid t = false →
      (∃ e, tryParseAnalysis jsonValid content = .error e) ∧
      parseAnalysis jsonValid content = .rawAnalysis t) ∧
    ((∀ t, content.head? ≠ some (.text t)) →
      (∃ e, tryParseAnalysis jsonValid content = .error e) ∧
      parseAnalysis jsonValid content = .rawAnalysis
        "Analysis failed to parse") ∧
    (generateAnalysisStep jsonValid).run sid acc w =
      ({ w with apiCalls := w.apiCalls + 1 },
       .ok (.analysisVal (parseAnalysis jsonValid
         w.apiResponse.content))) := by
  refine ⟨?_, ?_, rfl⟩
  · intro t ht hjv
    constructor
    · exact ⟨"Unexpected token in JSON", by simp [tryParseAnalysis, ht, hjv]⟩
    · simp [parseAnalysis, tryParseAnalysis, ht, hjv]
  · intro hnt
    cases hc : content.head? with
    | none =>
      constructor
      · exact ⟨"Empty response from API", by simp [tryParseAnalysis, hc]⟩
      · simp [parseAnalysis, tryParseAnalysis, hc]
    | some b =>
      cases b with
      | text t => exact absurd hc (hnt t)
      | other =>
        constructor
        · exact ⟨"Empty response from API", by simp [tryParseAnalysis, hc]⟩
        · simp [parseAnalysis, tryParseAnalysis, hc]

/-! ### Run store invariant -/

theorem length_filter_le_of_imp {α : Type} (l : List α) (p q : α → Bool)
    (h : ∀ a, p a = true → q a = true) :
    (l.filter p).length ≤ (l.filter q).length := by
  induction l with
  | nil => simp
  | cons a l ih =>
    by_cases hp : p a = true
    · rw [List.filter_cons_of_pos hp, List.filter_cons_of_pos (h a hp)]
      simpa using ih
    · rw [List.filter_cons_of_neg (by simpa using hp)]
      cases hq : q a
      · rw [List.filter_cons_of_neg (by simp [hq])]
        exact ih
      · rw [List.filter_cons_of_pos (by simp [hq])]
        exact ih.trans (Nat.le_succ _)

theorem inflightCount_map_le (st : RunStore) (g : WorkflowRun → WorkflowRun)
    (wf rid : String)
    (h : ∀ r, inflight (g r) wf rid = true → inflight r wf rid = true) :
    inflightCount { st with runs := st.runs.map g } wf rid ≤
      inflightCount st wf rid := by
  unfold inflightCount
  rw [List.filter_map, List.length_map]
  exact length_filter_le_of_imp st.runs _ _ (fun r hr => h r hr)

theorem invariant_map (st : RunStore) (g : WorkflowRun → WorkflowRun)
    (h : Invariant st)
    (hg : ∀ x wf rid, inflight (g x) wf rid = true →
      inflight x wf rid = true) :
    Invariant { st with runs := st.runs.map g } :=
  fun wf rid =>
    le_trans (inflightCount_map_le st g wf rid (fun r => hg r wf rid))
      (h wf rid)

theorem bool_and_mp {a b : Bool} (h : (a && b) = true) :
    a = true ∧ b = true := by
  cases a <;> cases b <;> simp_all

theorem bool_and_mpr {a b : Bool} (h1 : a = true) (h2 : b = true) :
    (a && b) = true := by
  cases a <;> cases b <;> simp_all

theorem applyOp_invariant (st : RunStore) (op : EngineOp)
    (h : Invariant st) : Invariant (applyOp st op) := by
  cases op with
  | create wf rid maxR =>
    intro wf' rid'
    show inflightCount (startWorkflow st wf rid maxR).1 wf' rid' ≤ 1
    unfold startWorkflow
    cases hb : busyRun st wf rid with
    | some r => exact h wf' rid'
    | none =>
      show inflightCount
        { runs := st.runs ++
            [⟨st.nextId, wf, rid, .pending, 0, maxR, none⟩],
          nextId := st.nextId + 1 } wf' rid' ≤ 1
      unfold inflightCount
      rw [List.filter_append]
      by_cases hpair : wf = wf' ∧ rid = rid'
      · obtain ⟨hw, hr⟩ := hpair
        subst hw; subst hr
        have h0 : st.runs.filter (fun r => inflight r wf rid) = [] := by
          rw [List.filter_eq_nil_iff]
          intro r hrr hc
          unfold busyRun at hb
          rw [List.find?_eq_none] at hb
          exact hb r hrr hc
        rw [h0]
        cases hn : inflight ⟨st.nextId, wf, rid, .pending, 0, maxR, none⟩
            wf rid
        · simp [List.filter, hn]
        · simp [List.filter, hn]
      · have hnew : inflight ⟨st.nextId, wf, rid, .pending, 0, maxR, none⟩
            wf' rid' = false := by
          unfold inflight
          rcases not_and_or.mp hpair with hne | hne <;> simp [hne]
        rw [List.filter_cons_of_neg (by simp [hnew])]
        simpa using h wf' rid'
  | claim =>
    show Invariant (claimNext st).1
    unfold claimNext
    cases hf : st.runs.find? (fun r => r.status == .pending) with
    | none => exact h
    | some r =>
      refine invariant_map st _ h ?_
      intro x wf rid hx
      by_cases hc : (x.id == r.id && x.status == .pending) = true
      · rw [if_pos hc] at hx
        have hp : x.status = .pending := by
          simpa using (bool_and_mp hc).2
        obtain ⟨hpair, _⟩ := bool_and_mp hx
        exact bool_and_mpr hpair (by simp [hp])
      · rw [if_neg hc] at hx
        exact hx
  | complete runId =>
    show Invariant (markCompleted st runId)
    refine invariant_map st _ h ?_
    intro x wf rid hx
    by_cases hc : (x.id == runId && x.status == .active) = true
    · rw [if_pos hc] at hx
      simp [inflight] at hx
    · rw [if_neg hc] at hx
      exact hx
  | fail runId e =>
    show Invariant (markFailed st runId e)
    refine invariant_map st _ h ?_
    intro x wf rid hx
    by_cases hc : (x.id == runId && x.status == .active) = true
    · rw [if_pos hc] at hx
      simp [inflight] at hx
    · rw [if_neg hc] at hx
      exact hx
  | retry runId =>
    show Invariant (markRetrying st runId)
    refine invariant_map st _ h ?_
    intro x wf rid hx
    by_cases hc : (x.id == runId && x.status == .active) = true
    · rw [if_pos hc] at hx
      have ha : x.status = .active := by
        simpa using (bool_and_mp hc).2
      obtain ⟨hpair, _⟩ := bool_and_mp hx
      exact bool_and_mpr hpair (by simp [ha])
    · rw [if_neg hc] at hx
      exact hx

/-- C2: starting from an empty store, every sequence of atomic Run Store
operations — any interleaving of concurrent `startWorkflow` callers and
pollers, including two near-simultaneous `startWorkflow` calls with the
same resource id — leaves at most one pending-or-active run per
`(workflowName, resourceId)` pair; and when an in-flight run exists,
`startWorkflow` returns that run's identifier and creates no second run. -/
theorem run_dedup_invariant :
    (∀ ops : List EngineOp, Invariant (applyOps emptyStore ops)) ∧
    (∀ (st : RunStore) (wf rid : String) (maxR : Nat) (r : WorkflowRun),
      busyRun st wf rid = some r →
      startWorkflow st wf rid maxR = (st, r.id) ∧ r ∈ st.runs ∧
      inflight r wf rid = true) := by
  constructor
  · intro ops
    suffices hsuf : ∀ st, Invariant st → Invariant (applyOps st ops) by
      exact hsuf emptyStore (fun wf rid => by
        simp [inflightCount, emptyStore])
    induction ops with
    | nil => intro st h; exact h
    | cons op ops ih =>
      intro st h
      exact ih _ (applyOp_invariant st op h)
  · intro st wf rid maxR r hb
    refine ⟨by unfold startWorkflow; rw [hb], ?_, ?_⟩
    · unfold busyRun at hb
      exact List.mem_of_find?_eq_some hb
    · unfold busyRun at hb
      have := List.find?_some hb
      simpa using this


/-! ### Retry driver lemmas -/

theorem driveAux_terminal {Out : Type} (attempt : Nat → Sum String Out) :
    ∀ (rem k : Nat),
      ((driveAux attempt k rem).error ≠ none →
        (driveAux attempt k rem).status = .failed ∧
        (driveAux attempt k rem).retryCount = k + rem) ∧
      ((driveAux attempt k rem).status = .completed →
        (driveAux attempt k rem).error = none)
  | 0, k => by
    cases ha : attempt k with
    | inr o => simp [driveAux, ha]
    | inl e => simp [driveAux, ha]
  | rem + 1, k => by
    cases ha : attempt k with
    | inr o => simp [driveAux, ha]
    | inl e =>
      simp only [driveAux, ha]
      obtain ⟨h1, h2⟩ := driveAux_terminal attempt rem (k + 1)
      refine ⟨fun hc => ?_, h2⟩
      obtain ⟨hs, hr⟩ := h1 hc
      exact ⟨hs, by omega⟩

theorem driveAux_attemptOf {Out : Type} (errs : Nat → String) (out : Out)
    (N : Nat) :
    ∀ (rem k : Nat),
      (N ≤ k + 1 →
        driveAux (attemptOf errs out N) k rem =
          ⟨.completed, k, none, some out⟩) ∧
      (k + 1 < N → N ≤ k + rem + 1 →
        driveAux (attemptOf errs out N) k rem =
          ⟨.completed, N - 1, none, some out⟩) ∧
      (k + 1 < N → k + rem + 1 < N →
        driveAux (attemptOf errs out N) k rem =
          ⟨.failed, k + rem, some (errs (k + rem)), none⟩)
  | 0, k => by
    refine ⟨?_, ?_, ?_⟩
    · intro h
      have ha : attemptOf errs out N k = .inr out := by
        unfold attemptOf; rw [if_neg (by omega)]
      simp [driveAux, ha]
    · intro hl h2
      omega
    · intro hl h2
      have ha : attemptOf errs out N k = .inl (errs k) := by
        unfold attemptOf; rw [if_pos (by omega)]
      simp [driveAux, ha]
  | rem + 1, k => by
    refine ⟨?_, ?_, ?_⟩
    · intro h
      have ha : attemptOf errs out N k = .inr out := by
        unfold attemptOf; rw [if_neg (by omega)]
      simp [driveAux, ha]
    · intro hl h2
      have ha : attemptOf errs out N k = .inl (errs k) := by
        unfold attemptOf; rw [if_pos hl]
      simp only [driveAux, ha]
      by_cases hN : N ≤ k + 2
      · rw [(driveAux_attemptOf errs out N rem (k + 1)).1 (by omega)]
        rw [show N - 1 = k + 1 by omega]
      · rw [(driveAux_attemptOf errs out N rem (k + 1)).2.1 (by omega)
          (by omega)]
    · intro hl h2
      have ha : attemptOf errs out N k = .inl (errs k) := by
        unfold attemptOf; rw [if_pos hl]
      simp only [driveAux, ha]
      rw [(driveAux_attemptOf errs out N rem (k + 1)).2.2 (by omega)
        (by omega)]
      rw [show k + 1 + rem = k + (rem + 1) by omega]

/-! ### Claim theorems for the scheduler and retry policy -/

/-- C5: `startWorkflow` returns as soon as the run row exists: the id it
returns always names a run present in the store with a pending or active
status (a new pending row, or the existing in-flight run under the
busy-resource rule), and the call itself executes no step; step failures
never reach its caller: along every sequence of atomic store operations an
in-flight run carries no error, and the driver records an error only when
the run has failed with its retry budget exhausted, where the Progress API
reads it. -/
theorem start_workflow_no_step_errors :
    (∀ (st : RunStore) (wf rid : String) (maxR : Nat),
      ∃ r, r ∈ (startWorkflow st wf rid maxR).1.runs ∧
        r.id = (startWorkflow st wf rid maxR).2 ∧
        (r.status = .pending ∨ r.status = .active)) ∧
    (∀ ops : List EngineOp, ∀ r ∈ (applyOps emptyStore ops).runs,
      (r.status = .pending ∨ r.status = .active) → r.error = none) ∧
    (∀ (Out : Type) (attempt : Nat → Sum String Out) (maxRetries : Nat),
      ((drive attempt maxRetries).error ≠ none →
        (drive attempt maxRetries).status = .failed ∧
        (drive attempt maxRetries).retryCount = maxRetries) ∧
      ((drive attempt maxRetries).status = .completed →
        (drive attempt maxRetries).error = none)) := by
  refine ⟨?_, ?_, ?_⟩
  · intro st wf rid maxR
    unfold startWorkflow
    cases hb : busyRun st wf rid with
    | some r =>
      refine ⟨r, ?_, rfl, ?_⟩
      · unfold busyRun at hb
        exact List.mem_of_find?_eq_some hb
      · unfold busyRun at hb
        have hinf : inflight r wf rid = true := by
          simpa using List.find?_some hb
        obtain ⟨-, hstat⟩ := bool_and_mp hinf
        cases hs : r.status with
        | pending => exact Or.inl rfl
        | active => exact Or.inr rfl
        | completed => rw [hs] at hstat; simp at hstat
        | failed => rw [hs] at hstat; simp at hstat
    | none =>
      exact ⟨⟨st.nextId, wf, rid, .pending, 0, maxR, none⟩,
        List.mem_append_right _ (List.mem_singleton.mpr rfl), rfl,
        Or.inl rfl⟩
  · suffices hsuf : ∀ (ops : List EngineOp) (st : RunStore),
        (∀ r ∈ st.runs,
          (r.status = .pending ∨ r.status = .active) → r.error = none) →
        ∀ r ∈ (applyOps st ops).runs,
          (r.status = .pending ∨ r.status = .active) → r.error = none by
      intro ops
      exact hsuf ops emptyStore (fun r hr => by simp [emptyStore] at hr)
    intro ops
    induction ops with
    | nil => intro st h; exact h
    | cons op ops ih =>
      intro st h
      refine ih (applyOp st op) ?_
      clear ih
      cases op with
      | create wf rid maxR =>
        intro r
        show r ∈ (startWorkflow st wf rid maxR).1.runs → _
        unfold startWorkflow
        cases hb : busyRun st wf rid with
        | some r0 => exact h r
        | none =>
          show r ∈ st.runs ++ [⟨st.nextId, wf, rid, .pending, 0, maxR,
            none⟩] → _
          intro hr hs
          rcases List.mem_append.mp hr with hmem | hmem
          · exact h r hmem hs
          · have : r = ⟨st.nextId, wf, rid, .pending, 0, maxR, none⟩ := by
              simpa using hmem
            rw [this]
      | claim =>
        intro r
        show r ∈ (claimNext st).1.runs → _
        unfold claimNext
        cases hf : st.runs.find? (fun x => x.status == .pending) with
        | none => exact h r
        | some r0 =>
          show r ∈ st.runs.map _ → _
          intro hr hs
          obtain ⟨x, hx, rfl⟩ := List.mem_map.mp hr
          by_cases hc : (x.id == r0.id && x.status == .pending) = true
          · rw [if_pos hc] at hs ⊢
            have hp : x.status = .pending := by
              simpa using (bool_and_mp hc).2
            exact h x hx (Or.inl hp)
          · rw [if_neg hc] at hs ⊢
            exact h x hx hs
      | complete runId =>
        intro r
        show r ∈ (markCompleted st runId).runs → _
        unfold markCompleted
        intro hr hs
        obtain ⟨x, hx, rfl⟩ := List.mem_map.mp hr
        by_cases hc : (x.id == runId && x.status == .active) = true
        · rw [if_pos hc] at hs
          rcases hs with hs | hs <;> exact nomatch hs
        · rw [if_neg hc] at hs ⊢
          exact h x hx hs
      | fail runId e =>
        intro r
        show r ∈ (markFailed st runId e).runs → _
        unfold markFailed
        intro hr hs
        obtain ⟨x, hx, rfl⟩ := List.mem_map.mp hr
        by_cases hc : (x.id == runId && x.status == .active) = true
        · rw [if_pos hc] at hs
          rcases hs with hs | hs <;> exact nomatch hs
        · rw [if_neg hc] at hs ⊢
          exact h x hx hs
      | retry runId =>
        intro r
        show r ∈ (markRetrying st runId).runs → _
        unfold markRetrying
        intro hr hs
        obtain ⟨x, hx, rfl⟩ := List.mem_map.mp hr
        by_cases hc : (x.id == runId && x.status == .active) = true
        · rw [if_pos hc] at hs ⊢
          have ha : x.status = .active := by
            simpa using (bool_and_mp hc).2
          exact h x hx (Or.inr ha)
        · rw [if_neg hc] at hs ⊢
          exact h x hx hs
  · intro Out attempt maxRetries
    unfold drive
    obtain ⟨h1, h2⟩ := driveAux_terminal attempt maxRetries 0
    refine ⟨fun hc => ?_, h2⟩
    obtain ⟨hs, hr⟩ := h1 hc
    exact ⟨hs, by omega⟩

/-- C3 (amended): with the spec retry rule — markRetrying while
`retryCount < maxRetries`, markFailed otherwise — a step that throws on its
first N−1 attempts and succeeds on attempt N leaves the run completed with
retryCount N−1 when N ≤ maxRetries + 1 (the initial attempt plus up to
maxRetries retries), and failed with the last attempt error recorded and
retryCount = maxRetries when N > maxRetries + 1; and no store operation
ever moves a failed run out of its terminal state — the engine never
re-enqueues a failed run on its own. -/
theorem step_retry_semantics (errs : Nat → String) {Out : Type} (out : Out)
    (N maxRetries : Nat) (h1 : 1 ≤ N) :
    (N ≤ maxRetries + 1 →
      drive (attemptOf errs out N) maxRetries =
        ⟨.completed, N - 1, none, some out⟩) ∧
    (maxRetries + 1 < N →
      drive (attemptOf errs out N) maxRetries =
        ⟨.failed, maxRetries, some (errs maxRetries), none⟩) ∧
    (∀ (st : RunStore) (op : EngineOp) (r : WorkflowRun), r ∈ st.runs →
      r.status = .failed → r ∈ (applyOp st op).runs) := by
  refine ⟨?_, ?_, ?_⟩
  · intro hle
    by_cases hN : N ≤ 1
    · have := (driveAux_attemptOf errs out N maxRetries 0).1 (by omega)
      show driveAux (attemptOf errs out N) 0 maxRetries = _
      rw [this, show N - 1 = 0 by omega]
    · exact (driveAux_attemptOf errs out N maxRetries 0).2.1 (by omega)
        (by omega)
  · intro hgt
    have := (driveAux_attemptOf errs out N maxRetries 0).2.2 (by omega)
      (by omega)
    show driveAux (attemptOf errs out N) 0 maxRetries = _
    rw [this]
    rw [show 0 + maxRetries = maxRetries by omega]
  · intro st op r hr hfail
    cases op with
    | create wf rid maxR =>
      show r ∈ (startWorkflow st wf rid maxR).1.runs
      unfold startWorkflow
      cases hb : busyRun st wf rid with
      | some r0 => exact hr
      | none => exact List.mem_append_left _ hr
    | claim =>
      show r ∈ (claimNext st).1.runs
      unfold claimNext
      cases hf : st.runs.find? (fun x => x.status == .pending) with
      | none => exact hr
      | some r0 =>
        refine List.mem_map.mpr ⟨r, hr, ?_⟩
        rw [if_neg ?_]
        intro hc
        have := (bool_and_mp hc).2
        rw [hfail] at this
        exact nomatch this
    | complete runId =>
      show r ∈ (markCompleted st runId).runs
      unfold markCompleted
      refine List.mem_map.mpr ⟨r, hr, ?_⟩
      rw [if_neg ?_]
      intro hc
      have := (bool_and_mp hc).2
      rw [hfail] at this
      exact nomatch this
    | fail runId e =>
      show r ∈ (markFailed st runId e).runs
      unfold markFailed
      refine List.mem_map.mpr ⟨r, hr, ?_⟩
      rw [if_neg ?_]
      intro hc
      have := (bool_and_mp hc).2
      rw [hfail] at this
      exact nomatch this
    | retry runId =>
      show r ∈ (markRetrying st runId).runs
      unfold markRetrying
      refine List.mem_map.mpr ⟨r, hr, ?_⟩
      rw [if_neg ?_]
      intro hc
      have := (bool_and_mp hc).2
      rw [hfail] at this
      exact nomatch this

/-- C7: an execution attempt exceeding the whole-run timeout budget goes
through exactly the same retry-accounting path as a step failure: the
driver written with a separate timeout arm equals, on every attempt
sequence and at every retry state, the driver that first converts the
timeout into a step failure carrying the timeout error — same
markRetrying / markFailed decisions, same retry counts, same recorded
error. -/
theorem timeout_is_step_failure {Out : Type}
    (attempt : Nat → RawOutcome Out) :
    (∀ rem k, driveRawAux attempt k rem =
      driveAux (fun i => asFailure (attempt i)) k rem) ∧
    asFailure (RawOutcome.timeout : RawOutcome Out) =
      .inl runTimeoutErrorMessage := by
  constructor
  · intro rem
    induction rem with
    | zero =>
      intro k
      simp only [driveRawAux, driveAux]
      cases attempt k <;> simp [asFailure]
    | succ rem ih =>
      intro k
      simp only [driveRawAux, driveAux]
      cases attempt k <;> simp [asFailure, ih]
  · rfl

/-! ### Progress counting lemmas -/

theorem lookupStep_nil {Out : Type} (n : String) :
    lookupStep ([] : List (String × Out)) n = none := rfl

theorem lookupStep_singleton_ne {Out : Type} (a n : String) (v : Out)
    (h : a ≠ n) : lookupStep [(a, v)] n = none := by
  unfold lookupStep
  have hb : (a == n) = false := by simpa using h
  simp [List.find?, hb]

theorem execSteps_ok_reached {σ Input Out : Type} (input : Input) :
    ∀ (steps : List (StepDef σ Input Out)) (store acc : List (String × Out))
      (w : σ) (outs : List (String × Out)),
      (execSteps input steps store acc w).result = .ok outs →
      (execSteps input steps store acc w).reached = steps.map StepDef.name
  | [], store, acc, w, outs => by simp [execSteps]
  | s :: rest, store, acc, w, outs => by
    cases hl : lookupStep store s.name with
    | some out =>
      simp only [execSteps, hl, List.map_cons]
      intro hres
      rw [execSteps_ok_reached input rest store (acc ++ [(s.name, out)]) w
        outs hres]
    | none =>
      cases hr : s.run input acc w with
      | mk w' res =>
        cases res with
        | ok out =>
          simp only [execSteps, hl, hr, List.map_cons]
          intro hres
          rw [execSteps_ok_reached input rest (store ++ [(s.name, out)])
            (acc ++ [(s.name, out)]) w' outs hres]
        | error e =>
          simp only [execSteps, hl, hr]
          intro hres
          simp at hres

theorem execSteps_ok_store_length {σ Input Out : Type} (input : Input) :
    ∀ (steps : List (StepDef σ Input Out)) (store acc : List (String × Out))
      (w : σ) (outs : List (String × Out)),
      (execSteps input steps store acc w).result = .ok outs →
      (execSteps input steps store acc w).store.length =
        store.length + (execSteps input steps store acc w).invoked.length
  | [], store, acc, w, outs => by simp [execSteps]
  | s :: rest, store, acc, w, outs => by
    cases hl : lookupStep store s.name with
    | some out =>
      simp only [execSteps, hl]
      intro hres
      exact execSteps_ok_store_length input rest store
        (acc ++ [(s.name, out)]) w outs hres
    | none =>
      cases hr : s.run input acc w with
      | mk w' res =>
        cases res with
        | ok out =>
          simp only [execSteps, hl, hr]
          intro hres
          have ih := execSteps_ok_store_length input rest
            (store ++ [(s.name, out)]) (acc ++ [(s.name, out)]) w' outs hres
          simp only [List.length_append, List.length_cons,
            List.length_nil] at ih ⊢
          omega
        | error e =>
          simp only [execSteps, hl, hr]
          intro hres
          simp at hres

theorem execSteps_fresh_no_skip {σ Input Out : Type} (input : Input) :
    ∀ (steps : List (StepDef σ Input Out)) (store acc : List (String × Out))
      (w : σ), (∀ s ∈ steps, lookupStep store s.name = none) →
      (steps.map StepDef.name).Nodup →
      (execSteps input steps store acc w).invoked =
        (execSteps input steps store acc w).reached
  | [], store, acc, w => by simp [execSteps]
  | s :: rest, store, acc, w => by
    intro hfresh hnd
    rw [List.map_cons] at hnd
    obtain ⟨hnotin, hnd2⟩ := List.nodup_cons.mp hnd
    have hl : lookupStep store s.name = none :=
      hfresh s (List.mem_cons_self s rest)
    cases hr : s.run input acc w with
    | mk w' res =>
      cases res with
      | ok out =>
        simp only [execSteps, hl, hr]
        have hfresh2 : ∀ t ∈ rest,
            lookupStep (store ++ [(s.name, out)]) t.name = none := by
          intro t ht
          rw [lookupStep_append, hfresh t (List.mem_cons_of_mem s ht)]
          show lookupStep [(s.name, out)] t.name = none
          exact lookupStep_singleton_ne _ _ _
            (fun he => hnotin (he ▸ List.mem_map_of_mem StepDef.name ht))
        have ih := execSteps_fresh_no_skip input rest
          (store ++ [(s.name, out)]) (acc ++ [(s.name, out)]) w' hfresh2 hnd2
        simp [ih]
      | error e =>
        simp only [execSteps, hl, hr]

/-- C6: for a run of a workflow whose definition has n distinct step names,
after the first k steps have executed and checkpointed their StepRecords
(a successful partial execution from an empty step store), `checkProgress`
— which counts StepRecords against the definition's step count — reports
completedSteps = k, totalSteps = n and completionPercentage = k·100/n,
with k ≤ n; it reads the store as it is mid-execution, after the k-th
checkpoint and before the remaining steps run. -/
theorem check_progress_counts {σ Input Out : Type} (input : Input)
    (steps₁ steps₂ : List (StepDef σ Input Out)) (w : σ)
    (outs : List (String × Out))
    (hnd : ((steps₁ ++ steps₂).map StepDef.name).Nodup)
    (hok : (execSteps input steps₁ [] [] w).result = .ok outs) :
    checkProgress (execSteps input steps₁ [] [] w).store
        (steps₁ ++ steps₂).length =
      ⟨steps₁.length, (steps₁ ++ steps₂).length,
       steps₁.length * 100 / (steps₁ ++ steps₂).length⟩ ∧
    steps₁.length ≤ (steps₁ ++ steps₂).length := by
  have hnd₁ : (steps₁.map StepDef.name).Nodup := by
    rw [List.map_append] at hnd
    exact hnd.of_append_left
  have hfresh : ∀ s ∈ steps₁,
      lookupStep ([] : List (String × Out)) s.name = none :=
    fun s _ => lookupStep_nil s.name
  have hlen : (execSteps input steps₁ [] [] w).store.length =
      steps₁.length := by
    rw [execSteps_ok_store_length input steps₁ [] [] w outs hok,
      execSteps_fresh_no_skip input steps₁ [] [] w hfresh hnd₁,
      execSteps_ok_reached input steps₁ [] [] w outs hok]
    simp
  constructor
  · unfold checkProgress
    rw [hlen]
  · rw [List.length_append]
    exact Nat.le_add_right _ _

/-! ### Resource id canonicalization -/

theorem length_filter_ne_dash (l : List Char) :
    (l.filter (fun c => c != '-')).length + l.count '-' = l.length := by
  induction l with
  | nil => simp
  | cons c l ih =>
    by_cases hc : c = '-'
    · subst hc
      rw [List.filter_cons_of_neg (by simp), List.count_cons_self]
      simp only [List.length_cons]
      omega
    · rw [List.filter_cons_of_pos (by simp [hc]),
        List.count_cons_of_ne (Ne.symm hc)]
      simp only [List.length_cons]
      omega

/-- C9: for a session id in canonical UUID form — 36 characters, four of
them hyphens — the resource id handed to the workflow store,
`compactUUID`, is the id with every hyphen removed and is exactly 32
characters, within the store's 32-character bound; for inputs not of that
shape the transformation gives no such guarantee: there is a
non-canonical input whose image exceeds the bound. -/
theorem compactUUID_bound (s : String) (h36 : s.length = 36)
    (h4 : s.data.count '-' = 4) :
    (compactUUID s).length = 32 ∧
    (compactUUID s).length ≤ resourceIdBound ∧
    (∀ c ∈ (compactUUID s).data, c ≠ '-') ∧
    (∃ bad : String, ¬(bad.length = 36 ∧ bad.data.count '-' = 4) ∧
      resourceIdBound < (compactUUID bad).length) := by
  have hlen : (compactUUID s).length =
      (s.data.filter (fun c => c != '-')).length := rfl
  have hdata : s.length = s.data.length := rfl
  have hcount := length_filter_ne_dash s.data
  have h32 : (compactUUID s).length = 32 := by
    rw [hlen]; omega
  refine ⟨h32, ?_, ?_, ?_⟩
  · rw [h32]
    exact Nat.le_refl 32
  · intro c hc
    have hmem : c ∈ s.data.filter (fun c => c != '-') := hc
    have := (List.mem_filter.mp hmem).2
    simpa using this
  · refine ⟨"aaaaaaaaaaaaaaaaaaaaaaaaaaaaaaaaa", ?_, ?_⟩
    · intro hbad
      exact absurd hbad.1 (by decide)
    · show 32 < (compactUUID "aaaaaaaaaaaaaaaaaaaaaaaaaaaaaaaaa").length
      decide

/-! ### Witnesses and counterexample -/

theorem workflow_resume_idempotent_witness :
    (execSteps "s1" c1Steps ([] : List (String × Val)) [] c1World).result =
      .ok c1Outs ∧
    (execSteps "s1" c1Steps
        (execSteps "s1" c1Steps [] [] c1World).store []
        (execSteps "s1" c1Steps [] [] c1World).world =
      { execSteps "s1" c1Steps [] [] c1World with invoked := [] } ∧
    ∀ n, (lookupStep ([] : List (String × Val)) n).isSome →
      n ∉ (execSteps "s1" c1Steps [] [] c1World).invoked) :=
  ⟨rfl, workflow_resume_idempotent "s1" c1Steps [] [] c1World c1Outs rfl⟩

theorem workflow_step_order_witness :
    (execSteps "x" failSteps [] [] 0).reached <+:
      failSteps.map StepDef.name ∧
    List.Sublist (execSteps "x" failSteps [] [] 0).invoked
      (execSteps "x" failSteps [] [] 0).reached ∧
    ∃ k, k < failSteps.length ∧
      (execSteps "x" failSteps [] [] 0).reached =
        (failSteps.map StepDef.name).take (k + 1) ∧
      (execSteps "x" failSteps [] [] 0).invoked.getLast? =
        (failSteps.map StepDef.name).get? k :=
  ⟨(workflow_step_order "x" failSteps [] [] 0).1,
   (workflow_step_order "x" failSteps [] [] 0).2.1,
   (workflow_step_order "x" failSteps [] [] 0).2.2 "boom" rfl⟩

theorem run_dedup_invariant_witness :
    inflightCount (applyOps emptyStore
        [EngineOp.create "analyze-session" "abc" 3,
         EngineOp.create "analyze-session" "abc" 3])
      "analyze-session" "abc" ≤ 1 ∧
    (startWorkflow (applyOps emptyStore
          [EngineOp.create "analyze-session" "abc" 3]) "analyze-session"
        "abc" 3 =
      (applyOps emptyStore [EngineOp.create "analyze-session" "abc" 3],
        0) ∧
      (⟨0, "analyze-session", "abc", .pending, 0, 3, none⟩ : WorkflowRun) ∈
        (applyOps emptyStore
          [EngineOp.create "analyze-session" "abc" 3]).runs ∧
      inflight (⟨0, "analyze-session", "abc", .pending, 0, 3, none⟩ :
        WorkflowRun) "analyze-session" "abc" = true) :=
  ⟨run_dedup_invariant.1
      [EngineOp.create "analyze-session" "abc" 3,
       EngineOp.create "analyze-session" "abc" 3] "analyze-session" "abc",
   run_dedup_invariant.2 (applyOps emptyStore
       [EngineOp.create "analyze-session" "abc" 3]) "analyze-session"
     "abc" 3 ⟨0, "analyze-session", "abc", .pending, 0, 3, none⟩ rfl⟩

theorem step_retry_semantics_witness :
    (1 : Nat) ≤ 2 ∧ (2 : Nat) ≤ 3 + 1 ∧
    drive (attemptOf (fun _ => "boom") (7 : Nat) 2) 3 =
      ⟨.completed, 1, none, some 7⟩ :=
  ⟨by decide, by decide,
   (step_retry_semantics (fun _ => "boom") 7 2 3 (by decide)).1
     (by decide)⟩

theorem step_retry_boundary_counterexample :
    (drive (attemptOf (fun _ => "boom") (42 : Nat) 2) 1).status =
      .completed ∧
    ¬(drive (attemptOf (fun _ => "boom") (42 : Nat) 2) 1).status =
      .failed ∧
    1 < 2 := by
  refine ⟨rfl, ?_, by decide⟩
  intro hc
  exact nomatch hc

theorem start_workflow_no_step_errors_witness :
    (⟨0, "wf", "res", .pending, 0, 3, none⟩ : WorkflowRun) ∈
      (applyOps emptyStore [EngineOp.create "wf" "res" 3]).runs ∧
    (⟨0, "wf", "res", .pending, 0, 3, none⟩ : WorkflowRun).error = none :=
  ⟨List.mem_singleton.mpr rfl,
   start_workflow_no_step_errors.2.1 [EngineOp.create "wf" "res" 3]
     ⟨0, "wf", "res", .pending, 0, 3, none⟩ (List.mem_singleton.mpr rfl)
     (Or.inl rfl)⟩

theorem check_progress_counts_witness :
    ((([fetchTranscriptStep, generateAnalysisStep noJson] ++
        [saveAnalysisStep]).map StepDef.name).Nodup ∧
     (execSteps "s1" [fetchTranscriptStep, generateAnalysisStep noJson]
        ([] : List (String × Val)) [] c1World).result =
       .ok [("fetch-transcript", .rows [("user", "hello")]),
            ("generate-analysis", .analysisVal (.rawAnalysis "not json"))]) ∧
    checkProgress (execSteps "s1"
        [fetchTranscriptStep, generateAnalysisStep noJson] [] []
        c1World).store
      ([fetchTranscriptStep, generateAnalysisStep noJson] ++
        [saveAnalysisStep]).length = ⟨2, 3, 66⟩ :=
  ⟨⟨by decide, rfl⟩,
   (check_progress_counts "s1"
     [fetchTranscriptStep, generateAnalysisStep noJson] [saveAnalysisStep]
     c1World
     [("fetch-transcript", .rows [("user", "hello")]),
      ("generate-analysis", .analysisVal (.rawAnalysis "not json"))]
     (by decide) rfl).1⟩

theorem save_analysis_idempotent_witness :
    lookupStep [("generate-analysis", Val.analysisVal (.rawAnalysis "r"))]
      "generate-analysis" = some (.analysisVal (.rawAnalysis "r")) ∧
    (((⟨[], [], ⟨[]⟩, 0⟩ : World).analyses.filter
      (fun p => p.1 == "s9")).length ≤ 1) ∧
    saveAnalysisStep.run "s9"
        [("generate-analysis", Val.analysisVal (.rawAnalysis "r"))]
        (saveAnalysisStep.run "s9"
          [("generate-analysis", Val.analysisVal (.rawAnalysis "r"))]
          ⟨[], [], ⟨[]⟩, 0⟩).1 =
      ((saveAnalysisStep.run "s9"
          [("generate-analysis", Val.analysisVal (.rawAnalysis "r"))]
          ⟨[], [], ⟨[]⟩, 0⟩).1, .ok .saved) :=
  ⟨rfl, by decide,
   (save_analysis_idempotent "s9" (.rawAnalysis "r")
     [("generate-analysis", Val.analysisVal (.rawAnalysis "r"))]
     ⟨[], [], ⟨[]⟩, 0⟩ rfl (by decide)).1⟩

theorem generate_analysis_parse_fallback_witness :
    [ContentBlock.text "oops"].head? = some (.text "oops") ∧
    noJson "oops" = false ∧
    parseAnalysis noJson [ContentBlock.text "oops"] = .rawAnalysis "oops" :=
  ⟨rfl, rfl,
   ((generate_analysis_parse_fallback noJson [ContentBlock.text "oops"]
     "s1" [] c1World).1 "oops" rfl rfl).2⟩

theorem compactUUID_bound_witness :
    ("123e4567-e89b-12d3-a456-426614174000" : String).length = 36 ∧
    ("123e4567-e89b-12d3-a456-426614174000" : String).data.count '-' = 4 ∧
    (compactUUID "123e4567-e89b-12d3-a456-426614174000").length = 32 :=
  ⟨by decide, by decide,
   (compactUUID_bound "123e4567-e89b-12d3-a456-426614174000" (by decide)
     (by decide)).1⟩

end VibesOnly
